import Mathlib

/-!
Shallow embedding of `src/improc.py` (image-manipulation helpers).

Images are rectangular pixel buffers; we model a single-channel image as a
structure holding its height, width and a pixel function.  Floating-point
pixel and alpha values are modelled as exact rationals (`ℚ`); `uint8`-valued
buffers (masks, gamma-corrected images) use `ℕ` pixels with `% 256` at the
points where the code casts to `uint8`.  External library calls
(OpenCV connected components, the COCO run-length mask codec, OpenCV resize,
the validator subprocess) are modelled from their documented contracts, as
restated by the repository; where only part of a library contract is ever
exercised, the unexercised part is kept abstract as an oracle parameter.
-/

/-- A single-channel image: height, width, and pixel values (row `y`, column `x`). -/
structure Image (α : Type) where
  h : ℕ
  w : ℕ
  pix : ℕ → ℕ → α

/-- Extensional equality of images: same dimensions and same pixel values at
every in-bounds location. -/
def Image.eqv {α : Type} (a b : Image α) : Prop :=
  a.h = b.h ∧ a.w = b.w ∧ ∀ y < a.h, ∀ x < a.w, a.pix y x = b.pix y x

instance {α : Type} [DecidableEq α] (a b : Image α) : Decidable (a.eqv b) := by
  unfold Image.eqv; infer_instance

/-- Embedding of `np.clip(x, lo, hi)` on integers. -/
def npClip (x lo hi : ℤ) : ℤ := min (max x lo) hi

/-- Embedding of `paste_over(im_src, im_dst, alpha, center)` from
`src/improc.py` (value semantics; the `inplace` flag is modelled separately by
`paste_over_prog`).  `center` is the already-rounded integer centre `(x, y)`;
`alpha = none` models passing `alpha=None`. -/
def paste_over (im_src im_dst : Image ℚ) (alpha : Option (ℕ → ℕ → ℚ))
    (center : ℤ × ℤ) : Image ℚ :=
  let ws : ℤ := im_src.w
  let hs : ℤ := im_src.h
  let wd : ℤ := im_dst.w
  let hd : ℤ := im_dst.h
  -- ideal_start_dst = center - width_height_src // 2
  let isdx : ℤ := center.1 - (im_src.w / 2 : ℕ)
  let isdy : ℤ := center.2 - (im_src.h / 2 : ℕ)
  -- ideal_end_dst = ideal_start_dst + width_height_src
  let iedx : ℤ := isdx + ws
  let iedy : ℤ := isdy + hs
  -- start_dst = np.clip(ideal_start_dst, 0, width_height_dst), likewise end_dst
  let sdx : ℤ := npClip isdx 0 wd
  let sdy : ℤ := npClip isdy 0 hd
  let edx : ℤ := npClip iedx 0 wd
  let edy : ℤ := npClip iedy 0 hd
  -- start_src = start_dst - ideal_start_dst
  let ssx : ℤ := sdx - isdx
  let ssy : ℤ := sdy - isdy
  -- alpha defaults to all-ones when absent
  let a : ℕ → ℕ → ℚ := alpha.getD (fun _ _ => 1)
  { h := im_dst.h, w := im_dst.w,
    pix := fun y x =>
      if sdy ≤ (y : ℤ) ∧ (y : ℤ) < edy ∧ sdx ≤ (x : ℤ) ∧ (x : ℤ) < edx then
        let sy : ℕ := ((y : ℤ) - sdy + ssy).toNat
        let sx : ℕ := ((x : ℤ) - sdx + ssx).toNat
        a sy sx * im_src.pix sy sx + (1 - a sy sx) * im_dst.pix y x
      else im_dst.pix y x }

/-- The unblended overwrite described by the spec: the clipped overlap region
of the destination is overwritten with the corresponding source sub-rectangle,
all other destination pixels are kept.  Stated from the spec's words, to be
compared with `paste_over` under an all-ones alpha. -/
def overwrite_over (im_src im_dst : Image ℚ) (center : ℤ × ℤ) : Image ℚ :=
  let isdx : ℤ := center.1 - (im_src.w / 2 : ℕ)
  let isdy : ℤ := center.2 - (im_src.h / 2 : ℕ)
  let sdx : ℤ := npClip isdx 0 im_dst.w
  let sdy : ℤ := npClip isdy 0 im_dst.h
  let edx : ℤ := npClip (isdx + im_src.w) 0 im_dst.w
  let edy : ℤ := npClip (isdy + im_src.h) 0 im_dst.h
  { h := im_dst.h, w := im_dst.w,
    pix := fun y x =>
      if sdy ≤ (y : ℤ) ∧ (y : ℤ) < edy ∧ sdx ≤ (x : ℤ) ∧ (x : ℤ) < edx then
        im_src.pix ((y : ℤ) - isdy).toNat ((x : ℤ) - isdx).toNat
      else im_dst.pix y x }

/-- The `ideal_start_dst.x` value: the x coordinate where the left edge of the source is
ideally placed, before clamping. -/
def placeStartX (im_src : Image ℚ) (cx : ℤ) : ℤ := cx - (im_src.w / 2 : ℕ)

/-- The `ideal_start_dst.y` value: the y coordinate where the top edge of the source is
ideally placed, before clamping. -/
def placeStartY (im_src : Image ℚ) (cy : ℤ) : ℤ := cy - (im_src.h / 2 : ℕ)

/-- The canonical default image (used as the out-of-range default of heap
lookups). -/
def emptyImage : Image ℚ := ⟨0, 0, fun _ _ => 0⟩

/-- State-passing embedding of `paste_over` including the `inplace` flag.  The
heap is the list of live arrays; arguments are references (indices) into it.
With `inplace=False` the code blends into `im_dst.copy()` (a fresh array);
with `inplace=True` it writes into `im_dst` itself and returns it. -/
def paste_over_prog (heap : List (Image ℚ)) (src dst : ℕ)
    (alpha : Option (ℕ → ℕ → ℚ)) (center : ℤ × ℤ) (inplace : Bool) :
    List (Image ℚ) × ℕ :=
  let im_src := heap.getD src emptyImage
  let im_dst := heap.getD dst emptyImage
  let res := paste_over im_src im_dst alpha center
  if inplace then (heap.set dst res, dst) else (heap ++ [res], heap.length)

/-- Exact-arithmetic idealisation of `get_gamma_lookup_table(gamma)`:
`(np.linspace(0, 1, 256) ** gamma * 255).astype(np.uint8)` with the linspace
entry `v/255` taken as an exact rational and the float exponent as a natural
exponent; the `uint8` cast truncates toward zero (`Int.toNat` after `floor`,
then `% 256`).  This is the mathematical intent of the table; the program's
actual float64 arithmetic is modelled bit-exactly by
`get_gamma_lookup_table_one_f64` below, and the two differ at gamma = 1. -/
def get_gamma_lookup_table (gamma : ℕ) : ℕ → ℕ :=
  fun v => (⌊((v : ℚ) / 255) ^ gamma * 255⌋).toNat % 256

/-- Exact-arithmetic idealisation of `adjust_gamma(image, gamma)` (value
semantics): `cv2.LUT` maps every pixel of the `uint8` image through the
256-entry lookup table. -/
def adjust_gamma (image : Image ℕ) (gamma : ℕ) : Image ℕ :=
  ⟨image.h, image.w, fun y x => get_gamma_lookup_table gamma (image.pix y x)⟩

/-- Smallest `s` with `m / 2^s < 2^53` (fuel-bounded binary shift search),
used to renormalise an IEEE 754 double significand after multiplication. -/
def shiftDownAmt : ℕ → ℕ → ℕ
  | 0, _ => 0
  | f + 1, m => if m < 2 ^ 53 then 0 else shiftDownAmt f (m / 2) + 1

/-- Smallest `u` with `m * 2^u ≥ 2^52` (fuel-bounded), used to renormalise a
small positive significand. -/
def shiftUpAmt : ℕ → ℕ → ℕ
  | 0, _ => 0
  | f + 1, m => if 2 ^ 52 ≤ m then 0 else shiftUpAmt f (2 * m) + 1

/-- Round `m / 2^s` to the nearest integer, ties to even: IEEE 754
round-to-nearest-even of a positive significand. -/
def roundNearestEven (m : ℕ) (s : ℕ) : ℕ :=
  let q := m / 2 ^ s
  let r := m % 2 ^ s
  if 2 * r < 2 ^ s then q
  else if 2 ^ s < 2 * r then q + 1
  else if q % 2 = 0 then q else q + 1

/-- A nonnegative IEEE 754 double in the normal range, as the exact dyadic
rational `m * 2^e` with `m = 0` or `2^52 ≤ m < 2^53` (no
overflow/underflow/sign handling: the gamma pipeline stays inside `[0, 255]`). -/
structure F64 where
  m : ℕ
  e : ℤ

/-- Normalise `m * 2^e` to a double: shift into the 53-bit range with
round-to-nearest-even (the rounding a float64 multiplication performs). -/
def mkF64 (m : ℕ) (e : ℤ) : F64 :=
  if m = 0 then ⟨0, 0⟩
  else
    let s := shiftDownAmt 200 m
    let q := roundNearestEven m s
    let q2 := if q = 2 ^ 53 then 2 ^ 52 else q
    let e2 := if q = 2 ^ 53 then e + s + 1 else e + s
    let u := shiftUpAmt 200 q2
    ⟨q2 * 2 ^ u, e2 - u⟩

/-- Correctly rounded float64 multiplication of nonnegative doubles. -/
def fmul (a b : F64) : F64 := mkF64 (a.m * b.m) (a.e + b.e)

/-- The float64 value of a natural number (exact for `n < 2^53`). -/
def fofNat (n : ℕ) : F64 := mkF64 n 0

/-- Smallest `s` with `n * 2^s ≥ 2^52 * d` (fuel-bounded), scaling a quotient
`n/d < 2^52` into the significand range. -/
def fdivScale : ℕ → ℕ → ℕ → ℕ
  | 0, _, _ => 0
  | f + 1, n, d => if 2 ^ 52 * d ≤ n then 0 else fdivScale f (2 * n) d + 1

/-- Correctly rounded float64 division `n / d` of naturals with `n/d < 2^52`
(the only regime used: the linspace step `1/255`): scale the quotient into
`[2^52, 2^53)` and round to nearest, ties to even, by comparing twice the
remainder with the divisor. -/
def fdivNat (n d : ℕ) : F64 :=
  if n = 0 ∨ d = 0 then ⟨0, 0⟩
  else
    let s := fdivScale 200 n d
    let q := n * 2 ^ s / d
    let r := n * 2 ^ s % d
    let m := if 2 * r < d then q else if d < 2 * r then q + 1
      else if q % 2 = 0 then q else q + 1
    if m = 2 ^ 53 then ⟨2 ^ 52, -(s : ℤ) + 1⟩ else ⟨m, -(s : ℤ)⟩

/-- Truncation of a nonnegative double toward zero, as performed by the C cast
behind `.astype(np.uint8)` (before the modular wrap). -/
def F64.trunc (a : F64) : ℕ :=
  if 0 ≤ a.e then a.m * 2 ^ a.e.toNat else a.m / 2 ^ (-a.e).toNat

/-- Entry `v` of `np.linspace(0, 1, 256)` as computed in float64: the step is
`fl(1/255)`, entry `v` is `fl(v * fl(1/255))`, and the endpoint entry 255 is
set to exactly 1.0. -/
def linspace01F64 (v : ℕ) : F64 :=
  if v = 255 then fofNat 1 else fmul (fofNat v) (fdivNat 1 255)

/-- Bit-exact float64 model of `get_gamma_lookup_table(1)`:
`(np.linspace(0, 1, 256) ** 1 * 255).astype(np.uint8)`.  Raising to the power
1 is exact (IEEE `pow(x, 1) = x`), the multiplication by 255 rounds to
nearest-even, and the `uint8` cast truncates toward zero then wraps mod 256. -/
def get_gamma_lookup_table_one_f64 (v : ℕ) : ℕ :=
  (fmul (linspace01F64 v) (fofNat 255)).trunc % 256

/-- Bit-exact float64 model of `adjust_gamma(image, 1)`: `cv2.LUT` maps every
pixel through the float64-computed gamma-1 table. -/
def adjust_gamma_one_f64 (image : Image ℕ) : Image ℕ :=
  ⟨image.h, image.w, fun y x => get_gamma_lookup_table_one_f64 (image.pix y x)⟩

/-- The 24 uint8 values whose float64 gamma-1 table entry falls just below the
integer (e.g. entry 33 is 32.99999999999999) and truncates to `v - 1`. -/
def gammaOneDeviations : List ℕ :=
  [33, 37, 41, 45, 49, 53, 57, 61, 66, 74, 82, 90, 98, 106, 114, 122,
   132, 148, 164, 180, 196, 212, 228, 244]

/-- Embedding of `is_image_readable(path)`.  The external validator call
`subprocess.call(['/usr/bin/identify', path], ...)` is modelled by its
outcome: `Except.ok code` when the subprocess ran and exited with `code`,
`Except.error ()` when the invocation itself failed (e.g. the executable
cannot be launched, which makes `subprocess.call` raise).  The function body
is `return subprocess.call(...) == 0` with no exception handler, so an
invocation failure propagates. -/
def is_image_readable (callResult : Except Unit ℤ) : Except Unit Bool :=
  match callResult with
  | Except.ok code => Except.ok (decide (code = 0))
  | Except.error e => Except.error e

/-- The output of `cv2.connectedComponentsWithStats` on a mask, kept abstract:
the number of labels `n` (label 0 is the background), the per-pixel label
image, the per-label area column `stats[:, -1]` (a pixel count, hence a
natural number), and the per-label bounding box `stats[:, :4]`. -/
structure CCStats where
  n : ℕ
  labels : ℕ → ℕ → ℕ
  area : ℕ → ℕ
  box : ℕ → ℕ × ℕ × ℕ × ℕ

/-- Embedding of `remove_small_components(mask, min_size)` (value semantics),
parametrised by the connected-component labelling `cc` of the mask: every
pixel whose component id `i` satisfies `stats[i, -1] < min_size` is zeroed,
all other pixels are kept. -/
def remove_small_components (mask : Image ℕ) (cc : CCStats) (min_size : ℤ) : Image ℕ :=
  ⟨mask.h, mask.w, fun y x =>
    if cc.labels y x < cc.n ∧ (cc.area (cc.labels y x) : ℤ) < min_size then 0
    else mask.pix y x⟩

/-- Index of a maximal value of `f` among `0, ..., n-1` (the last maximising
index, 0 when `n = 0`), modelling `np.argsort(areas)[-1]`. -/
def argmaxIdx (f : ℕ → ℕ) : ℕ → ℕ
  | 0 => 0
  | n + 1 =>
    let r := argmaxIdx f n
    if f r ≤ f n then n else r

/-- Embedding of `largest_connected_component(mask)`, parametrised by the
connected-component labelling `cc` of the uint8-cast mask.  With fewer than
one foreground component (`len(stats[1:]) < 1`) it returns the uint8-cast mask
and the box `(0, 0, 0, 0)`; otherwise the indicator of the largest-area
component and that component's `stats` box. -/
def largest_connected_component (mask : Image ℕ) (cc : CCStats) :
    Image ℕ × (ℕ × ℕ × ℕ × ℕ) :=
  let mask8 : Image ℕ := ⟨mask.h, mask.w, fun y x => mask.pix y x % 256⟩
  if cc.n - 1 < 1 then (mask8, (0, 0, 0, 0))
  else
    let largest_area_label := 1 + argmaxIdx (fun i => cc.area (1 + i)) (cc.n - 1)
    (⟨mask.h, mask.w, fun y x => if cc.labels y x = largest_area_label then 1 else 0⟩,
      cc.box largest_area_label)

/-- OpenCV interpolation modes used by `resize_by_factor`. -/
inductive Interp where
  | linear
  | area

/-- Embedding of `np.round`: round half to even (banker's rounding), as used by
`rounded_int_tuple`. -/
def np_round (q : ℚ) : ℤ :=
  if q - ⌊q⌋ = 1 / 2 then (if 2 ∣ ⌊q⌋ then ⌊q⌋ else ⌊q⌋ + 1) else ⌊q + 1 / 2⌋

/-- Model of `cv2.resize` with `INTER_AREA`, built from its documented contract for
integer scale ratios: each output pixel is the average of the corresponding
block of input pixels (block size `im.h / newH` by `im.w / newW`). -/
def cv2_resize_area (im : Image ℚ) (newW newH : ℕ) : Image ℚ :=
  let kw := im.w / newW
  let kh := im.h / newH
  ⟨newH, newW, fun y x =>
    ((Finset.range kh).sum fun dy => (Finset.range kw).sum fun dx =>
      im.pix (y * kh + dy) (x * kw + dx)) / ((kh : ℚ) * (kw : ℚ))⟩

/-- Model of `cv2.resize`: dispatch on the interpolation mode.  The bilinear
(`INTER_LINEAR`) path is not exercised by any claim and is kept abstract as
the `lin` oracle. -/
def cv2_resize (lin : Image ℚ → ℕ → ℕ → Image ℚ) (im : Image ℚ)
    (newW newH : ℕ) (interp : Interp) : Image ℚ :=
  match interp with
  | Interp.linear => lin im newW newH
  | Interp.area => cv2_resize_area im newW newH

/-- Embedding of `resize_by_factor(im, factor)` with `interp` left at its
default `None`: the new size is `np.round`-ed, and the interpolation is
bilinear for `factor > 1.0`, area-averaging otherwise. -/
def resize_by_factor (lin : Image ℚ → ℕ → ℕ → Image ℚ) (im : Image ℚ)
    (factor : ℚ) : Image ℚ :=
  let newW := (np_round (im.w * factor)).toNat
  let newH := (np_round (im.h * factor)).toNat
  let interp := if 1 < factor then Interp.linear else Interp.area
  cv2_resize lin im newW newH interp

/-- Expand a COCO-style run-length count list into the pixel list, `v` being
the value encoded by the first run (runs strictly alternate between 0 and 1). -/
def rleDecodeAux : List ℕ → ℕ → List ℕ
  | [], _ => []
  | c :: rest, v => List.replicate c v ++ rleDecodeAux rest (1 - v)

/-- Model of `pycocotools.mask.decode` on the counts of a binary mask: the first run
counts zeros. -/
def rleDecode (counts : List ℕ) : List ℕ := rleDecodeAux counts 0

/-- Run-length encode a pixel list: `v` is the value of the run currently
being counted and `acc` its length so far. -/
def rleEncodeAux : List ℕ → ℕ → ℕ → List ℕ
  | [], _, acc => [acc]
  | b :: rest, v, acc =>
    if b = v then rleEncodeAux rest v (acc + 1) else acc :: rleEncodeAux rest (1 - v) 1

/-- Model of `pycocotools.mask.encode` on a flattened binary mask: alternating run
lengths starting with the count of leading zeros (possibly 0). -/
def rleEncode (l : List ℕ) : List ℕ := rleEncodeAux l 0 0

/-- Column `x` of the uint8-cast mask, top to bottom. -/
def colList (m : Image ℕ) (x : ℕ) : List ℕ :=
  (List.range m.h).map fun y => m.pix y x % 256

/-- The first `w` columns of the mask flattened in Fortran (column-major)
order, as produced by `np.asfortranarray(mask.astype(np.uint8))`: element
`x * m.h + y` is pixel `(y, x)`. -/
def fortranFlat (m : Image ℕ) : ℕ → List ℕ
  | 0 => []
  | w + 1 => fortranFlat m w ++ colList m w

/-- A COCO run-length encoded mask: the mask's dimensions and the run counts. -/
structure RLEMask where
  h : ℕ
  w : ℕ
  counts : List ℕ

/-- Embedding of `encode_mask(mask)`: run-length encode the Fortran-order
flattening of the uint8-cast mask. -/
def encode_mask (m : Image ℕ) : RLEMask := ⟨m.h, m.w, rleEncode (fortranFlat m m.w)⟩

/-- Embedding of `decode_mask(encoded_mask)`: expand the runs and reshape in
Fortran (column-major) order. -/
def decode_mask (e : RLEMask) : Image ℕ :=
  ⟨e.h, e.w, fun y x => (rleDecode e.counts).getD (x * e.h + y) 0⟩

/-- Concrete 2x2 source image used in witnesses. -/
def testSrc : Image ℚ := ⟨2, 2, fun y x => ((y * 2 + x : ℕ) : ℚ)⟩

/-- Concrete 4x4 destination image used in witnesses. -/
def testDst : Image ℚ := ⟨4, 4, fun y x => ((100 + y * 4 + x : ℕ) : ℚ)⟩

/-- Concrete constant alpha map used in witnesses. -/
def testAlpha : ℕ → ℕ → ℚ := fun _ _ => 1 / 2

/-- Concrete 2x2 uint8 image used in witnesses. -/
def testGray : Image ℕ := ⟨2, 2, fun y x => 10 * y + x⟩

/-- Concrete 1x2 uint8 image containing the value 33, on which the float64
gamma-1 adjustment is not the identity. -/
def testGamma33 : Image ℕ := ⟨1, 2, fun _ x => if x = 0 then 33 else 7⟩

/-- Concrete all-background mask used in witnesses. -/
def testEmptyMask : Image ℕ := ⟨2, 2, fun _ _ => 0⟩

/-- A connected-component labelling of `testEmptyMask`: one label (the
background) and no foreground component. -/
def testEmptyCC : CCStats := ⟨1, fun _ _ => 0, fun _ => 4, fun _ => (0, 0, 2, 2)⟩

/-- Concrete binary 2x3 mask used in witnesses. -/
def testMask : Image ℕ := ⟨2, 3, fun y x => if y = x then 1 else 0⟩

/-- C1: when the source is placed fully inside the destination bounds,
`paste_over` keeps the destination shape, blends `alpha*src + (1-alpha)*dst`
per pixel inside the placed region, and leaves every pixel outside the placed
region equal to the corresponding destination pixel. -/
theorem paste_over_fully_inside (im_src im_dst : Image ℚ) (alpha : ℕ → ℕ → ℚ)
    (cx cy : ℤ)
    (hx0 : 0 ≤ placeStartX im_src cx)
    (hx1 : placeStartX im_src cx + im_src.w ≤ im_dst.w)
    (hy0 : 0 ≤ placeStartY im_src cy)
    (hy1 : placeStartY im_src cy + im_src.h ≤ im_dst.h) :
    (paste_over im_src im_dst (some alpha) (cx, cy)).h = im_dst.h ∧
    (paste_over im_src im_dst (some alpha) (cx, cy)).w = im_dst.w ∧
    ∀ y x : ℕ,
      ((placeStartY im_src cy ≤ (y : ℤ) ∧ (y : ℤ) < placeStartY im_src cy + im_src.h ∧
        placeStartX im_src cx ≤ (x : ℤ) ∧ (x : ℤ) < placeStartX im_src cx + im_src.w) →
        (paste_over im_src im_dst (some alpha) (cx, cy)).pix y x =
          alpha ((y : ℤ) - placeStartY im_src cy).toNat ((x : ℤ) - placeStartX im_src cx).toNat *
              im_src.pix ((y : ℤ) - placeStartY im_src cy).toNat
                ((x : ℤ) - placeStartX im_src cx).toNat +
            (1 - alpha ((y : ℤ) - placeStartY im_src cy).toNat
                ((x : ℤ) - placeStartX im_src cx).toNat) * im_dst.pix y x) ∧
      (¬(placeStartY im_src cy ≤ (y : ℤ) ∧ (y : ℤ) < placeStartY im_src cy + im_src.h ∧
          placeStartX im_src cx ≤ (x : ℤ) ∧ (x : ℤ) < placeStartX im_src cx + im_src.w) →
        (paste_over im_src im_dst (some alpha) (cx, cy)).pix y x = im_dst.pix y x) := by
  simp only [placeStartX, placeStartY] at hx0 hx1 hy0 hy1
  have hsdy : min (max (cy - ((im_src.h / 2 : ℕ) : ℤ)) 0) (im_dst.h : ℤ) =
      cy - ((im_src.h / 2 : ℕ) : ℤ) := by omega
  have hsdx : min (max (cx - ((im_src.w / 2 : ℕ) : ℤ)) 0) (im_dst.w : ℤ) =
      cx - ((im_src.w / 2 : ℕ) : ℤ) := by omega
  have hedy : min (max (cy - ((im_src.h / 2 : ℕ) : ℤ) + (im_src.h : ℤ)) 0) (im_dst.h : ℤ) =
      cy - ((im_src.h / 2 : ℕ) : ℤ) + (im_src.h : ℤ) := by omega
  have hedx : min (max (cx - ((im_src.w / 2 : ℕ) : ℤ) + (im_src.w : ℤ)) 0) (im_dst.w : ℤ) =
      cx - ((im_src.w / 2 : ℕ) : ℤ) + (im_src.w : ℤ) := by omega
  refine ⟨rfl, rfl, fun y x => ⟨fun hreg => ?_, fun hreg => ?_⟩⟩ <;>
      simp only [placeStartX, placeStartY] at hreg ⊢ <;>
      simp only [paste_over, npClip, Option.getD] <;>
      rw [hsdy, hsdx, hedy, hedx]
  · rw [if_pos hreg]
    simp only [sub_add_sub_cancel]
  · rw [if_neg hreg]

/-- C1 witness: a 2x2 source pasted at centre (2,2) of a 4x4 destination with
constant alpha 1/2 blends pixel (1,2) to (1 + 106)/2. -/
theorem paste_over_fully_inside_witness :
    (paste_over testSrc testDst (some testAlpha) (2, 2)).pix 1 2 = 107 / 2 := by
  have h3 := ((paste_over_fully_inside testSrc testDst testAlpha 2 2 (by decide) (by decide)
      (by decide) (by decide)).2.2 1 2).1 (by decide)
  rw [h3]
  norm_num [testAlpha, testSrc, testDst, placeStartX, placeStartY]

/-- C2: when the ideal placement rectangle lies entirely outside the
destination bounds, `paste_over` returns the destination unchanged (the guard
is the empty clamped overlap; no failure occurs since the result is total). -/
theorem paste_over_fully_outside (im_src im_dst : Image ℚ)
    (alpha : Option (ℕ → ℕ → ℚ)) (cx cy : ℤ)
    (hout : placeStartX im_src cx + im_src.w ≤ 0 ∨ (im_dst.w : ℤ) ≤ placeStartX im_src cx ∨
      placeStartY im_src cy + im_src.h ≤ 0 ∨ (im_dst.h : ℤ) ≤ placeStartY im_src cy) :
    (paste_over im_src im_dst alpha (cx, cy)).eqv im_dst := by
  refine ⟨rfl, rfl, fun y hy x hx => ?_⟩
  simp only [placeStartX, placeStartY] at hout
  simp only [paste_over, npClip]
  split_ifs with hc
  · exact absurd hc (by omega)
  · rfl

/-- C2 witness: pasting the 2x2 source at centre (100,100), far outside the
4x4 destination, returns the destination unchanged. -/
theorem paste_over_fully_outside_witness :
    (paste_over testSrc testDst none (100, 100)).eqv testDst :=
  paste_over_fully_outside testSrc testDst none 100 100 (by decide)

/-- C3: `paste_over` with an all-ones alpha map overwrites the clipped overlap
region with the corresponding source sub-rectangle and keeps all other
destination pixels, and `paste_over` with `alpha = None` equals `paste_over`
with an all-ones alpha map. -/
theorem paste_over_opaque_and_default :
    (∀ (im_src im_dst : Image ℚ) (c : ℤ × ℤ),
      (paste_over im_src im_dst (some fun _ _ => 1) c).eqv (overwrite_over im_src im_dst c)) ∧
    (∀ (im_src im_dst : Image ℚ) (c : ℤ × ℤ),
      paste_over im_src im_dst none c = paste_over im_src im_dst (some fun _ _ => 1) c) := by
  refine ⟨fun im_src im_dst c => ⟨rfl, rfl, fun y hy x hx => ?_⟩, fun _ _ _ => rfl⟩
  simp only [paste_over, overwrite_over, npClip, Option.getD]
  split_ifs with hc
  · simp only [sub_add_sub_cancel, one_mul, sub_self, zero_mul, add_zero]
  · rfl

/-- C4, exact-arithmetic intent: with the linspace entries taken as exact
rationals, `adjust_gamma` with gamma = 1 is the identity on uint8 images and
the gamma-1 table fixes every value `v < 256`.  This establishes that the
identity is the mathematical intent of the code; the program's float64
arithmetic deviates from it (see `adjust_gamma_one_f64_not_identity`). -/
theorem adjust_gamma_one_id (image : Image ℕ)
    (h8 : ∀ y < image.h, ∀ x < image.w, image.pix y x < 256) :
    (adjust_gamma image 1).eqv image ∧
    ∀ v < 256, get_gamma_lookup_table 1 v = v := by
  have hlut : ∀ v < 256, get_gamma_lookup_table 1 v = v := by
    intro v hv
    unfold get_gamma_lookup_table
    rw [pow_one, div_mul_cancel₀ _ (by norm_num : (255 : ℚ) ≠ 0), Int.floor_natCast,
      Int.toNat_natCast]
    exact Nat.mod_eq_of_lt hv
  exact ⟨⟨rfl, rfl, fun y hy x hx => hlut _ (h8 y hy x hx)⟩, hlut⟩

/-- Concrete instance of the exact-arithmetic intent: gamma-1 adjustment of a
concrete uint8 image is the identity, and the ideal gamma-1 table fixes 200. -/
theorem adjust_gamma_one_id_witness :
    (adjust_gamma testGray 1).eqv testGray ∧ get_gamma_lookup_table 1 200 = 200 :=
  ⟨(adjust_gamma_one_id testGray (by decide)).1,
    (adjust_gamma_one_id testGray (by decide)).2 200 (by decide)⟩

/-- C4: evaluation of the program's float64 arithmetic at the failing input:
the gamma-1 lookup table maps 33 to 32 (the computed entry
`fl(fl(33 * fl(1/255)) * 255) = 32.99999999999999` truncates under the uint8
cast), so `adjust_gamma(image, 1)` is not the identity on an image containing
the value 33 - against the claim and the code's evident intent. -/
theorem adjust_gamma_one_f64_not_identity :
    get_gamma_lookup_table_one_f64 33 = 32 ∧
    ¬(adjust_gamma_one_f64 testGamma33).eqv testGamma33 := by decide

set_option maxRecDepth 4000 in
/-- Full float64 behaviour of the gamma-1 table: it fixes every uint8 value
except the 24 values of `gammaOneDeviations`, which it maps to `v - 1`. -/
theorem get_gamma_lookup_table_one_f64_spec :
    ∀ v < 256, get_gamma_lookup_table_one_f64 v =
      if v ∈ gammaOneDeviations then v - 1 else v := by decide

/-- C5 helper: decoding the encoding of a binary list, generalised over the
current run value `v` and the accumulated run length `acc`. -/
theorem rle_decode_encode_aux (l : List ℕ) : ∀ v acc, v ≤ 1 → (∀ b ∈ l, b ≤ 1) →
    rleDecodeAux (rleEncodeAux l v acc) v = List.replicate acc v ++ l := by
  induction l with
  | nil => intro v acc _ _; simp [rleEncodeAux, rleDecodeAux]
  | cons b rest ih =>
    intro v acc hv hl
    by_cases hb : b = v
    · rw [rleEncodeAux]
      rw [if_pos hb]
      rw [ih v (acc + 1) hv fun c hc => hl c (List.mem_cons_of_mem _ hc)]
      rw [List.replicate_succ' acc v]
      rw [List.append_assoc]
      simp [hb]
    · rw [rleEncodeAux, if_neg hb]
      rw [rleDecodeAux]
      rw [ih (1 - v) 1 (by omega) fun c hc => hl c (List.mem_cons_of_mem _ hc)]
      have hb1 : b = 1 - v := by
        have := hl b (List.mem_cons_self b rest)
        omega
      simp [hb1]

/-- C5 helper: the run-length codec round-trips binary lists. -/
theorem rle_round (l : List ℕ) (hl : ∀ b ∈ l, b ≤ 1) : rleDecode (rleEncode l) = l := by
  have := rle_decode_encode_aux l 0 0 (by omega) hl
  simpa [rleDecode, rleEncode] using this

/-- C5 helper: length of the Fortran-order flattening. -/
theorem fortranFlat_length (m : Image ℕ) : ∀ w, (fortranFlat m w).length = w * m.h := by
  intro w
  induction w with
  | zero => simp [fortranFlat]
  | succ n ih =>
    rw [fortranFlat]
    rw [List.length_append, ih]
    simp [colList]
    ring

/-- C5 helper: element `x * m.h + y` of the Fortran-order flattening is pixel
`(y, x)` of the uint8-cast mask. -/
theorem fortranFlat_getD (m : Image ℕ) : ∀ w x y, x < w → y < m.h →
    (fortranFlat m w).getD (x * m.h + y) 0 = m.pix y x % 256 := by
  intro w
  induction w with
  | zero => intro x y hx hy; omega
  | succ n ih =>
    intro x y hx hy
    rw [fortranFlat]
    by_cases hxn : x < n
    · rw [List.getD_append _ _ _ _ ?_]
      · exact ih x y hxn hy
      · rw [fortranFlat_length]
        have h1 : (x + 1) * m.h ≤ n * m.h := Nat.mul_le_mul_right _ (by omega)
        have h2 : x * m.h + y < (x + 1) * m.h := by
          rw [Nat.succ_mul]
          omega
        omega
    · have hxe : x = n := by omega
      subst hxe
      rw [show x * m.h + y = (fortranFlat m x).length + y from by
        rw [fortranFlat_length]]
      rw [List.getD_append_right _ _ _ _ (by omega)]
      rw [Nat.add_sub_cancel_left]
      rw [colList, List.getD_eq_getD_get?, List.get?_eq_getElem?, List.getElem?_map,
        List.getElem?_range hy]
      rfl

/-- C5 helper: the flattening of a binary mask is a binary list. -/
theorem fortranFlat_binary (m : Image ℕ)
    (hbin : ∀ y < m.h, ∀ x < m.w, m.pix y x ≤ 1) :
    ∀ w, w ≤ m.w → ∀ b ∈ fortranFlat m w, b ≤ 1 := by
  intro w
  induction w with
  | zero => intro _ b hb; simp [fortranFlat] at hb
  | succ n ih =>
    intro hw b hb
    rw [fortranFlat] at hb
    rcases List.mem_append.mp hb with h | h
    · exact ih (by omega) b h
    · rw [colList] at h
      rcases List.mem_map.mp h with ⟨y, hy, hm⟩
      rw [List.mem_range] at hy
      have := hbin y hy n (by omega)
      omega

/-- C5: for every binary (0/1) mask, `decode_mask (encode_mask mask)` equals
the original mask. -/
theorem decode_encode_mask (m : Image ℕ)
    (hbin : ∀ y < m.h, ∀ x < m.w, m.pix y x ≤ 1) :
    (decode_mask (encode_mask m)).eqv m := by
  refine ⟨rfl, rfl, fun y hy x hx => ?_⟩
  replace hy : y < m.h := hy
  replace hx : x < m.w := hx
  show (rleDecode (rleEncode (fortranFlat m m.w))).getD (x * m.h + y) 0 = m.pix y x
  rw [rle_round _ (fortranFlat_binary m hbin m.w (le_refl _))]
  rw [fortranFlat_getD m m.w x y hx hy]
  exact Nat.mod_eq_of_lt (by have := hbin y hy x hx; omega)

/-- C5 witness: the round trip on a concrete 2x3 binary mask. -/
theorem decode_encode_mask_witness :
    (decode_mask (encode_mask testMask)).eqv testMask :=
  decode_encode_mask testMask (by decide)

/-- C6 counterexample: when the invocation of the validator fails,
`is_image_readable` does not return `False`; the failure propagates. -/
theorem is_image_readable_error_not_false :
    ¬(is_image_readable (Except.error ()) = Except.ok false) := by
  simp [is_image_readable]

/-- C6 (amended): `is_image_readable` returns `True` exactly when the
subprocess exits with code 0 and `False` on any nonzero exit code, but an
invocation failure is not caught: it propagates instead of yielding `False`. -/
theorem is_image_readable_exit_code (r : Except Unit ℤ) :
    (is_image_readable r = Except.ok true ↔ r = Except.ok 0) ∧
    (∀ c : ℤ, c ≠ 0 → is_image_readable (Except.ok c) = Except.ok false) ∧
    (∀ e : Unit, is_image_readable (Except.error e) = Except.error e) := by
  refine ⟨?_, fun c hc => by simp [is_image_readable, hc], fun e => rfl⟩
  cases r with
  | ok code => simp [is_image_readable]
  | error e => simp [is_image_readable]

/-- C6 witness: exit code 7 yields `False`. -/
theorem is_image_readable_exit_code_witness :
    is_image_readable (Except.ok 7) = Except.ok false :=
  (is_image_readable_exit_code (Except.ok 7)).2.1 7 (by decide)

/-- C7: with `min_size = 0` no component has area strictly below the
threshold (areas are pixel counts, hence nonnegative), so
`remove_small_components` returns the mask unchanged. -/
theorem remove_small_components_zero (mask : Image ℕ) (cc : CCStats) :
    (remove_small_components mask cc 0).eqv mask := by
  refine ⟨rfl, rfl, fun y hy x hx => ?_⟩
  simp only [remove_small_components]
  rw [if_neg]
  rintro ⟨-, hlt⟩
  omega

/-- C8: on a mask whose labelling has no foreground component (only the
background label), `largest_connected_component` returns the uint8-cast mask
itself and the bounding box `(0, 0, 0, 0)` - a total, well-defined default. -/
theorem largest_connected_component_empty (mask : Image ℕ) (cc : CCStats)
    (hn : cc.n ≤ 1) :
    (largest_connected_component mask cc).1.eqv
      ⟨mask.h, mask.w, fun y x => mask.pix y x % 256⟩ ∧
    (largest_connected_component mask cc).2 = (0, 0, 0, 0) := by
  have hg : cc.n - 1 < 1 := by omega
  simp only [largest_connected_component, if_pos hg]
  exact ⟨⟨rfl, rfl, fun _ _ _ _ => rfl⟩, trivial⟩

/-- C8 witness: on the all-background 2x2 mask the function returns the mask
and the zero box. -/
theorem largest_connected_component_empty_witness :
    (largest_connected_component testEmptyMask testEmptyCC).1.eqv
      ⟨testEmptyMask.h, testEmptyMask.w, fun y x => testEmptyMask.pix y x % 256⟩ ∧
    (largest_connected_component testEmptyMask testEmptyCC).2 = (0, 0, 0, 0) :=
  largest_connected_component_empty testEmptyMask testEmptyCC (by decide)

/-- C9: `resize_by_factor` with factor 1 keeps the image's dimensions and every
pixel value, whatever the (unused) bilinear interpolation does. -/
theorem resize_by_factor_one (lin : Image ℚ → ℕ → ℕ → Image ℚ) (im : Image ℚ) :
    (resize_by_factor lin im 1).eqv im := by
  have hr : ∀ n : ℕ, np_round ((n : ℚ) * 1) = (n : ℤ) := by
    intro n
    rw [np_round, mul_one, Int.floor_natCast]
    rw [if_neg (by push_cast; norm_num)]
    rw [Int.floor_eq_iff]
    constructor <;> push_cast <;> linarith
  simp only [resize_by_factor, hr, Int.toNat_natCast]
  rw [if_neg (by norm_num : ¬(1 : ℚ) < 1)]
  simp only [cv2_resize, cv2_resize_area]
  refine ⟨rfl, rfl, fun y hy x hx => ?_⟩
  replace hy : y < im.h := hy
  replace hx : x < im.w := hx
  have hh : im.h / im.h = 1 := Nat.div_self (by omega)
  have hw : im.w / im.w = 1 := Nat.div_self (by omega)
  show ((Finset.range (im.h / im.h)).sum fun dy =>
      (Finset.range (im.w / im.w)).sum fun dx =>
        im.pix (y * (im.h / im.h) + dy) (x * (im.w / im.w) + dx)) /
      (((im.h / im.h : ℕ) : ℚ) * ((im.w / im.w : ℕ) : ℚ)) = im.pix y x
  rw [hh, hw]
  simp [Finset.sum_range_one]

/-- C10: with `inplace=False`, `paste_over` leaves every existing array - in
particular `im_dst` - unmodified, and returns a fresh array holding the blend,
with exactly `im_dst`'s shape; with `inplace=True` it returns the `im_dst`
reference itself, now holding the blend, and touches no other array. -/
theorem paste_over_inplace_frame (heap : List (Image ℚ)) (src dst : ℕ)
    (alpha : Option (ℕ → ℕ → ℚ)) (center : ℤ × ℤ) (hdst : dst < heap.length) :
    ((∀ i, i < heap.length →
        (paste_over_prog heap src dst alpha center false).1.getD i emptyImage =
          heap.getD i emptyImage) ∧
      (paste_over_prog heap src dst alpha center false).2 = heap.length ∧
      (paste_over_prog heap src dst alpha center false).1.getD
          (paste_over_prog heap src dst alpha center false).2 emptyImage =
        paste_over (heap.getD src emptyImage) (heap.getD dst emptyImage)
          alpha center ∧
      ((paste_over_prog heap src dst alpha center false).1.getD
          (paste_over_prog heap src dst alpha center false).2 emptyImage).h =
        (heap.getD dst emptyImage).h ∧
      ((paste_over_prog heap src dst alpha center false).1.getD
          (paste_over_prog heap src dst alpha center false).2 emptyImage).w =
        (heap.getD dst emptyImage).w) ∧
    ((paste_over_prog heap src dst alpha center true).2 = dst ∧
      (paste_over_prog heap src dst alpha center true).1.getD dst emptyImage =
        paste_over (heap.getD src emptyImage) (heap.getD dst emptyImage)
          alpha center ∧
      ∀ i, i < heap.length → i ≠ dst →
        (paste_over_prog heap src dst alpha center true).1.getD i emptyImage =
          heap.getD i emptyImage) := by
  have e1 : (paste_over_prog heap src dst alpha center false).1 =
      heap ++ [paste_over (heap.getD src emptyImage) (heap.getD dst emptyImage)
        alpha center] := rfl
  have e2 : (paste_over_prog heap src dst alpha center false).2 = heap.length := rfl
  have e3 : (paste_over_prog heap src dst alpha center true).1 =
      heap.set dst (paste_over (heap.getD src emptyImage)
        (heap.getD dst emptyImage) alpha center) := rfl
  have e4 : (paste_over_prog heap src dst alpha center true).2 = dst := rfl
  rw [e1, e2, e3, e4]
  have hb : (heap ++ [paste_over (heap.getD src emptyImage)
        (heap.getD dst emptyImage) alpha center]).getD heap.length emptyImage =
      paste_over (heap.getD src emptyImage) (heap.getD dst emptyImage)
        alpha center := by
    rw [List.getD_append_right _ _ _ _ (le_refl _)]
    simp
  refine ⟨⟨fun i hi => List.getD_append _ _ _ _ hi, rfl, hb, ?_, ?_⟩,
    rfl, ?_, fun i hi hne => ?_⟩
  · rw [hb]; rfl
  · rw [hb]; rfl
  · rw [List.getD_eq_getD_get?, List.get?_eq_getElem?,
      List.getElem?_set_eq_of_lt _ hdst]
    rfl
  · rw [List.getD_eq_getD_get?, List.get?_eq_getElem?,
      List.getElem?_set_ne (by omega), ← List.get?_eq_getElem?,
      ← List.getD_eq_getD_get?]

/-- C10 witness: in a two-array heap, pasting array 0 onto array 1 out of
place leaves array 1 unchanged, while the in-place variant returns reference 1. -/
theorem paste_over_inplace_frame_witness :
    (paste_over_prog [testSrc, testDst] 0 1 none (2, 2) false).1.getD 1 emptyImage =
      testDst ∧
    (paste_over_prog [testSrc, testDst] 0 1 none (2, 2) true).2 = 1 :=
  ⟨(paste_over_inplace_frame [testSrc, testDst] 0 1 none (2, 2) (by decide)).1.1
      1 (by decide),
    (paste_over_inplace_frame [testSrc, testDst] 0 1 none (2, 2) (by decide)).2.1⟩

/-- C3 witness: the all-ones paste of the concrete source equals the
overwrite on the concrete destination. -/
theorem paste_over_opaque_and_default_witness :
    (paste_over testSrc testDst (some fun _ _ => 1) (2, 2)).eqv
      (overwrite_over testSrc testDst (2, 2)) :=
  paste_over_opaque_and_default.1 testSrc testDst (2, 2)

/-- C7 witness: removing size-0 components from the concrete mask under the
concrete labelling changes nothing. -/
theorem remove_small_components_zero_witness :
    (remove_small_components testMask testEmptyCC 0).eqv testMask :=
  remove_small_components_zero testMask testEmptyCC

/-- C9 witness: factor-1 resize of the concrete source image is the identity. -/
theorem resize_by_factor_one_witness :
    (resize_by_factor (fun i _ _ => i) testSrc 1).eqv testSrc :=
  resize_by_factor_one (fun i _ _ => i) testSrc
